import Mathlib

/-!
Shallow embedding of the CPU path of
`chainer/functions/pooling/roi_average_align_2d.py`.

Real-number arithmetic of the Python code is modelled exactly over `ℚ`;
Python integers are `ℤ` (or `ℕ` for loop counters and array shapes).
The Python `while` loops of `forward_cpu` / `backward_cpu` are modelled
with an explicit fuel parameter: a call diverges exactly when the result
is `none` for every choice of fuel.
-/

/-- Python `int(q)` on a real value: truncation toward zero. -/
def pyInt (q : ℚ) : ℤ := if 0 ≤ q then ⌊q⌋ else ⌈q⌉

/-- The record of values returned by `_get_bilinear_interp_params` on an
in-range sample: corner indices `y_low, x_low, y_high, x_high` and the four
bilinear interpolation weights `w1..w4`. -/
structure BilinearParams where
  y_low : ℤ
  x_low : ℤ
  y_high : ℤ
  x_high : ℤ
  w1 : ℚ
  w2 : ℚ
  w3 : ℚ
  w4 : ℚ
  deriving Repr, DecidableEq

/-- The in-range branch of `_get_bilinear_interp_params`:
clamp the coordinate to be `>= 0`, take the integer part, snap the corner
pair to `height-1` (resp. `width-1`) when the low corner reaches the last
row/column (recomputing the coordinate there), and form the weights from
the fractional offsets. -/
def bilinearCore (y x : ℚ) (height width : ℕ) : BilinearParams :=
  let y1 : ℚ := if y ≤ 0 then 0 else y
  let x1 : ℚ := if x ≤ 0 then 0 else x
  let yl0 : ℤ := pyInt y1
  let xl0 : ℤ := pyInt x1
  let y_low : ℤ := if (height : ℤ) - 1 ≤ yl0 then (height : ℤ) - 1 else yl0
  let y_high : ℤ := if (height : ℤ) - 1 ≤ yl0 then (height : ℤ) - 1 else yl0 + 1
  let y2 : ℚ := if (height : ℤ) - 1 ≤ yl0 then (((height : ℤ) - 1 : ℤ) : ℚ) else y1
  let x_low : ℤ := if (width : ℤ) - 1 ≤ xl0 then (width : ℤ) - 1 else xl0
  let x_high : ℤ := if (width : ℤ) - 1 ≤ xl0 then (width : ℤ) - 1 else xl0 + 1
  let x2 : ℚ := if (width : ℤ) - 1 ≤ xl0 then (((width : ℤ) - 1 : ℤ) : ℚ) else x1
  let ly : ℚ := y2 - y_low
  let lx : ℚ := x2 - x_low
  let hy : ℚ := 1 - ly
  let hx : ℚ := 1 - lx
  ⟨y_low, x_low, y_high, x_high, hy * hx, hy * lx, ly * hx, ly * lx⟩

/-- `_get_bilinear_interp_params(y, x, height, width)`: `none` models the
`(None,) * 8` out-of-range sentinel, otherwise the corner/weight record. -/
def get_bilinear_interp_params (y x : ℚ) (height width : ℕ) :
    Option BilinearParams :=
  if y < -1 ∨ (height : ℚ) < y ∨ x < -1 ∨ (width : ℚ) < x then none
  else some (bilinearCore y x height width)

/-- Construction-time configuration of `ROIAverageAlign2D` (the state left
by `__init__`): pooled output height/width, the spatial scale, and the two
per-axis sampling ratios, where `none` models Python `None`. -/
structure AlignConfig where
  outh : ℕ
  outw : ℕ
  spatial_scale : ℚ
  sampling_ratio_h : Option ℤ
  sampling_ratio_w : Option ℤ

/-- What `__init__` validation guarantees about a constructed operator:
positive pooled sizes and, when given, sampling ratios `>= 1`. -/
def ConfigValid (cfg : AlignConfig) : Prop :=
  1 ≤ cfg.outh ∧ 1 ≤ cfg.outw ∧
    (∀ k, cfg.sampling_ratio_h = some k → 1 ≤ k) ∧
    (∀ k, cfg.sampling_ratio_w = some k → 1 ≤ k)

/-- A Python number passed as `spatial_scale`: an `int` or a `float`
(floats modelled as exact rationals). -/
inductive PyNumber where
  | int : ℤ → PyNumber
  | float : ℚ → PyNumber
  deriving Repr, DecidableEq

/-- The `spatial_scale` handling in `ROIAverageAlign2D.__init__`: an `int`
is unconditionally converted with `float(...)`; any other value must be a
strictly positive float, otherwise `TypeError` is raised. -/
def initSpatialScale : PyNumber → Except String ℚ
  | .int n => .ok (n : ℚ)
  | .float q =>
      if 0 < q then .ok q
      else .error "spatial_scale must be a positive float number"

/-- Per-bin sampling grid size on one axis: the configured sampling ratio
when present, else `numpy.ceil(roi_extent / pooled_extent)`. -/
def roiBinGrid (sr : Option ℤ) (extent : ℚ) (pooled : ℕ) : ℤ :=
  match sr with
  | none => ⌈extent / (pooled : ℚ)⌉
  | some k => k

/-- The per-ROI geometry that both `forward_cpu` and `backward_cpu` derive
before their sampling loops. -/
structure BinGeom where
  roi_start_h : ℚ
  roi_start_w : ℚ
  bin_size_h : ℚ
  bin_size_w : ℚ
  gridH : ℤ
  gridW : ℤ
  count : ℚ

/-- Geometry from the already-scaled ROI corners:
`roi_height = max(roi_end_h - roi_start_h, 1.)` (and symmetrically for the
width), bin sizes `roi_extent / pooled_extent`, the two grid sizes, and
`count = roi_bin_grid_h * roi_bin_grid_w`. -/
def binGeomScaled (cfg : AlignConfig) (sh sw eh ew : ℚ) : BinGeom :=
  let roi_height : ℚ := max (eh - sh) 1
  let roi_width : ℚ := max (ew - sw) 1
  let gh : ℤ := roiBinGrid cfg.sampling_ratio_h roi_height cfg.outh
  let gw : ℤ := roiBinGrid cfg.sampling_ratio_w roi_width cfg.outw
  { roi_start_h := sh
    roi_start_w := sw
    bin_size_h := roi_height / (cfg.outh : ℚ)
    bin_size_w := roi_width / (cfg.outw : ℚ)
    gridH := gh
    gridW := gw
    count := (gh : ℚ) * (gw : ℚ) }

/-- Geometry from a raw ROI row `(y_min, x_min, y_max, x_max)`: the four
corners are first multiplied by `spatial_scale`. -/
def binGeom (cfg : AlignConfig) (roi : ℚ × ℚ × ℚ × ℚ) : BinGeom :=
  binGeomScaled cfg (roi.1 * cfg.spatial_scale) (roi.2.1 * cfg.spatial_scale)
    (roi.2.2.1 * cfg.spatial_scale) (roi.2.2.2 * cfg.spatial_scale)

/-- Sample ordinate
`y = roi_start_h + ph * bin_size_h + (iy + .5) * bin_size_h / roi_bin_grid_h`. -/
def sampleY (g : BinGeom) (ph iy : ℕ) : ℚ :=
  g.roi_start_h + (ph : ℚ) * g.bin_size_h +
    ((iy : ℚ) + 1/2) * g.bin_size_h / (g.gridH : ℚ)

/-- Sample abscissa
`x = roi_start_w + pw * bin_size_w + (ix + .5) * bin_size_w / roi_bin_grid_w`. -/
def sampleX (g : BinGeom) (pw ix : ℕ) : ℚ :=
  g.roi_start_w + (pw : ℚ) * g.bin_size_w +
    ((ix : ℚ) + 1/2) * g.bin_size_w / (g.gridW : ℚ)

/-- A feature map as a total value function `(batch, channel, y, x) ↦ value`;
the development only ever reads it at indices the code resolves. -/
abbrev FeatureMap := ℤ → ℕ → ℤ → ℤ → ℚ

/-- Inner `while ix < roi_bin_grid_w` loop of `forward_cpu`, with fuel.
The Python `continue` on an out-of-range sample re-enters the loop without
executing `ix += 1`, which is modelled faithfully here. -/
def fwdLoopIx (data : FeatureMap) (H W : ℕ) (b : ℤ) (c : ℕ) (g : BinGeom)
    (pw : ℕ) (y : ℚ) : ℕ → ℕ → ℚ → Option ℚ
  | 0, _, _ => none
  | fuel + 1, ix, acc =>
    if (ix : ℤ) < g.gridW then
      match get_bilinear_interp_params y (sampleX g pw ix) H W with
      | none => fwdLoopIx data H W b c g pw y fuel ix acc
      | some p =>
          let v1 := data b c p.y_low p.x_low
          let v2 := data b c p.y_low p.x_high
          let v3 := data b c p.y_high p.x_low
          let v4 := data b c p.y_high p.x_high
          fwdLoopIx data H W b c g pw y fuel (ix + 1)
            (acc + (p.w1 * v1 + p.w2 * v2 + p.w3 * v3 + p.w4 * v4))
    else some acc

/-- Outer `while iy < roi_bin_grid_h` loop of `forward_cpu`, with its own
fuel; the inner loop restarts at `ix = 0` with fuel `fuelIx` on every row
while the accumulator is threaded through. -/
def fwdLoopIy (data : FeatureMap) (H W : ℕ) (b : ℤ) (c : ℕ) (g : BinGeom)
    (ph pw : ℕ) (fuelIx : ℕ) : ℕ → ℕ → ℚ → Option ℚ
  | 0, _, _ => none
  | fuel + 1, iy, acc =>
    if (iy : ℤ) < g.gridH then
      match fwdLoopIx data H W b c g pw (sampleY g ph iy) fuelIx 0 acc with
      | none => none
      | some acc' => fwdLoopIy data H W b c g ph pw fuelIx fuel (iy + 1) acc'
    else some acc

/-- The body of `forward_cpu` for one output element, starting from the
already-scaled ROI corners: derive the geometry, run the sampling loops
from `output_val = 0`, and divide by `count`. -/
def fwdBinScaled (cfg : AlignConfig) (data : FeatureMap) (H W : ℕ) (b : ℤ)
    (c : ℕ) (sh sw eh ew : ℚ) (ph pw : ℕ) (fuelIx fuelIy : ℕ) : Option ℚ :=
  let g := binGeomScaled cfg sh sw eh ew
  (fwdLoopIy data H W b c g ph pw fuelIx fuelIy 0 0).map (fun s => s / g.count)

/-- The body of `forward_cpu` for output element `(n, c, ph, pw)`: look up
the ROI row and batch index, scale the corners, and evaluate the bin. -/
def fwdBin (cfg : AlignConfig) (data : FeatureMap) (H W : ℕ)
    (rois : ℕ → ℚ × ℚ × ℚ × ℚ) (idx : ℕ → ℤ) (n c ph pw : ℕ)
    (fuelIx fuelIy : ℕ) : Option ℚ :=
  fwdBinScaled cfg data H W (idx n) c
    ((rois n).1 * cfg.spatial_scale) ((rois n).2.1 * cfg.spatial_scale)
    ((rois n).2.2.1 * cfg.spatial_scale) ((rois n).2.2.2 * cfg.spatial_scale)
    ph pw fuelIx fuelIy

/-- Decoding of the flat loop index `i` used by both CPU paths:
`pw = i % OW`, `ph = (i / OW) % OH`, `c = (i / OW / OH) % C`,
`n = i / OW / OH / C`. -/
def decodeIdx (C OH OW i : ℕ) : ℕ × ℕ × ℕ × ℕ :=
  (i / OW / OH / C, i / OW / OH % C, i / OW % OH, i % OW)

/-- `ROIAverageAlign2D.forward_cpu`: iterate the flat index over all
`n_rois * channels * outh * outw` output elements, producing the flat list
of output values in iteration order; the result is `none` when some bin's
sampling loop runs out of fuel (i.e. the Python loop diverges). -/
def forward_cpu (cfg : AlignConfig) (data : FeatureMap) (C H W : ℕ)
    (rois : ℕ → ℚ × ℚ × ℚ × ℚ) (idx : ℕ → ℤ) (nRois : ℕ)
    (fuelIx fuelIy : ℕ) : Option (List ℚ) :=
  (List.range (nRois * C * cfg.outh * cfg.outw)).foldl
    (fun acc i =>
      acc.bind fun l =>
        let q := decodeIdx C cfg.outh cfg.outw i
        (fwdBin cfg data H W rois idx q.1 q.2.1 q.2.2.1 q.2.2.2
            fuelIx fuelIy).map (fun v => l ++ [v]))
    (some [])

/-- A cell of the feature-map gradient array: `(batch, channel, y, x)`. -/
abbrev GradKey := ℤ × ℕ × ℤ × ℤ

/-- One recorded `+=` accumulation into `bottom_diff`: target cell and
added amount. -/
abbrev GradDep := GradKey × ℚ

/-- The four guarded accumulations of one resolved sample in
`backward_cpu`: `g1..g4 = top_diff_this_bin * w_i / count`, each added at
its corner; all four are skipped when the defensive nonnegativity guard on
the corner indices fails. -/
def bwdSampleDeps (b : ℤ) (c : ℕ) (p : BilinearParams) (tg cnt : ℚ) :
    List GradDep :=
  if 0 ≤ p.x_low ∧ 0 ≤ p.x_high ∧ 0 ≤ p.y_low ∧ 0 ≤ p.y_high then
    [((b, c, p.y_low, p.x_low), tg * p.w1 / cnt),
     ((b, c, p.y_low, p.x_high), tg * p.w2 / cnt),
     ((b, c, p.y_high, p.x_low), tg * p.w3 / cnt),
     ((b, c, p.y_high, p.x_high), tg * p.w4 / cnt)]
  else []

/-- Inner `while ix < roi_bin_grid_w` loop of `backward_cpu`, with fuel,
recording accumulations in order; as in forward, the Python `continue` on
an out-of-range sample skips `ix += 1`. -/
def bwdLoopIx (H W : ℕ) (b : ℤ) (c : ℕ) (g : BinGeom) (pw : ℕ) (tg : ℚ)
    (y : ℚ) : ℕ → ℕ → List GradDep → Option (List GradDep)
  | 0, _, _ => none
  | fuel + 1, ix, acc =>
    if (ix : ℤ) < g.gridW then
      match get_bilinear_interp_params y (sampleX g pw ix) H W with
      | none => bwdLoopIx H W b c g pw tg y fuel ix acc
      | some p =>
          bwdLoopIx H W b c g pw tg y fuel (ix + 1)
            (acc ++ bwdSampleDeps b c p tg g.count)
    else some acc

/-- Outer `while iy < roi_bin_grid_h` loop of `backward_cpu`. -/
def bwdLoopIy (H W : ℕ) (b : ℤ) (c : ℕ) (g : BinGeom) (ph pw : ℕ) (tg : ℚ)
    (fuelIx : ℕ) : ℕ → ℕ → List GradDep → Option (List GradDep)
  | 0, _, _ => none
  | fuel + 1, iy, acc =>
    if (iy : ℤ) < g.gridH then
      match bwdLoopIx H W b c g pw tg (sampleY g ph iy) fuelIx 0 acc with
      | none => none
      | some acc' => bwdLoopIy H W b c g ph pw tg fuelIx fuel (iy + 1) acc'
    else some acc

/-- The body of `backward_cpu` for output element `(n, c, ph, pw)`: look up
ROI row, batch index and `top_diff_this_bin`, derive the geometry, and run
the sampling loops, extending the accumulation record `acc`. -/
def bwdBin (cfg : AlignConfig) (H W : ℕ) (rois : ℕ → ℚ × ℚ × ℚ × ℚ)
    (idx : ℕ → ℤ) (topDiff : ℕ → ℕ → ℕ → ℕ → ℚ) (n c ph pw : ℕ)
    (fuelIx fuelIy : ℕ) (acc : List GradDep) : Option (List GradDep) :=
  bwdLoopIy H W (idx n) c (binGeom cfg (rois n)) ph pw (topDiff n c ph pw)
    fuelIx fuelIy 0 acc

/-- `ROIAverageAlign2D.backward_cpu`: iterate the flat index over all
output elements of `gy`, recording every guarded `+=` into the
zero-initialised `bottom_diff` in execution order.  The returned gradient
array is recovered from the record by `bottomDiffAt`. -/
def backward_cpu (cfg : AlignConfig) (C H W : ℕ)
    (rois : ℕ → ℚ × ℚ × ℚ × ℚ) (idx : ℕ → ℤ)
    (topDiff : ℕ → ℕ → ℕ → ℕ → ℚ) (nRois : ℕ) (fuelIx fuelIy : ℕ) :
    Option (List GradDep) :=
  (List.range (nRois * C * cfg.outh * cfg.outw)).foldl
    (fun acc i =>
      acc.bind fun l =>
        let q := decodeIdx C cfg.outh cfg.outw i
        bwdBin cfg H W rois idx topDiff q.1 q.2.1 q.2.2.1 q.2.2.2
          fuelIx fuelIy l)
    (some [])

/-- Value of the returned `bottom_diff` array at one cell: the array is
zero-initialised and each recorded accumulation adds its amount, so the
final value at a cell is the sum of the amounts deposited there. -/
def bottomDiffAt (l : List GradDep) (p : GradKey) : ℚ :=
  ((l.filter fun d => decide (d.1 = p)).map (fun d => d.2)).sum

/-- Total of all recorded accumulation amounts. -/
def depTotal (l : List GradDep) : ℚ := (l.map fun d => d.2).sum

/-- Sum of the recovered gradient array over a set of cells. -/
def cellSum (S : Finset GradKey) (l : List GradDep) : ℚ :=
  ∑ p ∈ S, bottomDiffAt l p

/-- The full index set of a `(B, C, H, W)`-shaped gradient array. -/
def shapeCells (B C H W : ℕ) : Finset GradKey :=
  Finset.Icc 0 ((B : ℤ) - 1) ×ˢ Finset.range C ×ˢ
    Finset.Icc 0 ((H : ℤ) - 1) ×ˢ Finset.Icc 0 ((W : ℤ) - 1)

/-! ### Lemmas about the bilinear sampler -/

theorem pyInt_nonneg (q : ℚ) (hq : 0 ≤ q) : 0 ≤ pyInt q := by
  simp only [pyInt, if_pos hq]
  exact Int.floor_nonneg.mpr hq

theorem get_bilinear_some (y x : ℚ) (h w : ℕ) (p : BilinearParams)
    (hp : get_bilinear_interp_params y x h w = some p) :
    p = bilinearCore y x h w := by
  unfold get_bilinear_interp_params at hp
  split_ifs at hp
  exact (Option.some.inj hp).symm

theorem bilinearCore_weight_sum (y x : ℚ) (h w : ℕ) :
    (bilinearCore y x h w).w1 + (bilinearCore y x h w).w2 +
      (bilinearCore y x h w).w3 + (bilinearCore y x h w).w4 = 1 := by
  simp only [bilinearCore]
  ring

theorem bilinearCore_corner_bounds (y x : ℚ) (h w : ℕ)
    (hh : 1 ≤ h) (hw : 1 ≤ w) :
    0 ≤ (bilinearCore y x h w).y_low ∧
      (bilinearCore y x h w).y_low ≤ (bilinearCore y x h w).y_high ∧
      (bilinearCore y x h w).y_high ≤ (h : ℤ) - 1 ∧
      0 ≤ (bilinearCore y x h w).x_low ∧
      (bilinearCore y x h w).x_low ≤ (bilinearCore y x h w).x_high ∧
      (bilinearCore y x h w).x_high ≤ (w : ℤ) - 1 := by
  simp only [bilinearCore]
  set y1 : ℚ := if y ≤ 0 then 0 else y with hy1def
  set x1 : ℚ := if x ≤ 0 then 0 else x with hx1def
  have hy0 : (0:ℚ) ≤ y1 := by
    rw [hy1def]
    split_ifs with h0
    · exact le_refl 0
    · exact le_of_lt (not_le.mp h0)
  have hx0 : (0:ℚ) ≤ x1 := by
    rw [hx1def]
    split_ifs with h0
    · exact le_refl 0
    · exact le_of_lt (not_le.mp h0)
  have hys : 0 ≤ pyInt y1 := pyInt_nonneg _ hy0
  have hxs : 0 ≤ pyInt x1 := pyInt_nonneg _ hx0
  split_ifs with h1 h2 h2 <;> refine ⟨?_, ?_, ?_, ?_, ?_, ?_⟩ <;> omega

theorem one_le_roiBinGrid (sr : Option ℤ) (hsr : ∀ k, sr = some k → 1 ≤ k)
    (ext : ℚ) (hext : 1 ≤ ext) (p : ℕ) (hp : 1 ≤ p) :
    1 ≤ roiBinGrid sr ext p := by
  cases sr with
  | none =>
      have hpos : (0:ℚ) < ext / (p : ℚ) := by
        apply div_pos (lt_of_lt_of_le zero_lt_one hext)
        exact_mod_cast Nat.pos_of_ne_zero (by omega)
      have := Int.ceil_pos.mpr hpos
      simp only [roiBinGrid]
      omega
  | some k => simpa [roiBinGrid] using hsr k rfl

/-! ### Divergence of the sampling loops on an Invalid sample

In the CPU loops the Python `continue` jumps back to the `while` test
without executing `ix += 1`; the sample coordinate is then recomputed
unchanged, so an out-of-range sample makes the loop spin forever.  The
following lemmas show the fuel-based model returns `none` for every fuel
in that situation. -/

theorem fwdLoopIx_stuck (data : FeatureMap) (H W : ℕ) (b : ℤ) (c : ℕ)
    (g : BinGeom) (pw : ℕ) (y : ℚ) (ix : ℕ)
    (hlt : (ix : ℤ) < g.gridW)
    (hbad : get_bilinear_interp_params y (sampleX g pw ix) H W = none) :
    ∀ fuel acc, fwdLoopIx data H W b c g pw y fuel ix acc = none := by
  intro fuel
  induction fuel with
  | zero => intro acc; rfl
  | succ n ih =>
      intro acc
      rw [fwdLoopIx, if_pos hlt, hbad]
      exact ih acc

theorem fwdLoopIy_stuck (data : FeatureMap) (H W : ℕ) (b : ℤ) (c : ℕ)
    (g : BinGeom) (ph pw : ℕ) (fuelIx : ℕ)
    (h0 : (0 : ℤ) < g.gridH)
    (hrow : ∀ fuel acc,
      fwdLoopIx data H W b c g pw (sampleY g ph 0) fuel 0 acc = none) :
    ∀ fuelIy acc, fwdLoopIy data H W b c g ph pw fuelIx fuelIy 0 acc = none := by
  intro fuelIy acc
  cases fuelIy with
  | zero => rfl
  | succ n =>
      rw [fwdLoopIy]
      have : ((0 : ℕ) : ℤ) < g.gridH := by exact_mod_cast h0
      rw [if_pos this, hrow fuelIx acc]

theorem bwdLoopIx_stuck (H W : ℕ) (b : ℤ) (c : ℕ) (g : BinGeom) (pw : ℕ)
    (tg : ℚ) (y : ℚ) (ix : ℕ)
    (hlt : (ix : ℤ) < g.gridW)
    (hbad : get_bilinear_interp_params y (sampleX g pw ix) H W = none) :
    ∀ fuel acc, bwdLoopIx H W b c g pw tg y fuel ix acc = none := by
  intro fuel
  induction fuel with
  | zero => intro acc; rfl
  | succ n ih =>
      intro acc
      rw [bwdLoopIx, if_pos hlt, hbad]
      exact ih acc

theorem bwdLoopIy_stuck (H W : ℕ) (b : ℤ) (c : ℕ) (g : BinGeom)
    (ph pw : ℕ) (tg : ℚ) (fuelIx : ℕ)
    (h0 : (0 : ℤ) < g.gridH)
    (hrow : ∀ fuel acc,
      bwdLoopIx H W b c g pw tg (sampleY g ph 0) fuel 0 acc = none) :
    ∀ fuelIy acc, bwdLoopIy H W b c g ph pw tg fuelIx fuelIy 0 acc = none := by
  intro fuelIy acc
  cases fuelIy with
  | zero => rfl
  | succ n =>
      rw [bwdLoopIy]
      have : ((0 : ℕ) : ℤ) < g.gridH := by exact_mod_cast h0
      rw [if_pos this, hrow fuelIx acc]

/-! ### Claim theorems: sampler-level claims -/

/-- C7: the validity test of the sampler is boundary-inclusive with an
asymmetric comparison — a sample returns the Invalid sentinel exactly when
`y < -1` or `y > height` or `x < -1` or `x > width`, so samples at exactly
`y = height`, `x = width`, `y = -1` or `x = -1` are valid. -/
theorem C7_boundary_inclusive_validity (y x : ℚ) (h w : ℕ) :
    get_bilinear_interp_params y x h w = none ↔
      (y < -1 ∨ (h : ℚ) < y ∨ x < -1 ∨ (w : ℚ) < x) := by
  unfold get_bilinear_interp_params
  split_ifs with hc
  · simp [hc]
  · simp [hc]

/-- C5: whenever the sampler returns valid parameters, the four bilinear
weights sum to exactly 1. -/
theorem C5_weight_sum (y x : ℚ) (h w : ℕ) (p : BilinearParams)
    (hp : get_bilinear_interp_params y x h w = some p) :
    p.w1 + p.w2 + p.w3 + p.w4 = 1 := by
  rw [get_bilinear_some y x h w p hp]
  exact bilinearCore_weight_sum y x h w

/-- Witness for C5 at the concrete valid sample `(1/2, 1/2)` on a 2×2
plane, whose weights are all `1/4`. -/
theorem C5_weight_sum_witness :
    (1:ℚ)/4 + 1/4 + 1/4 + 1/4 = 1 :=
  C5_weight_sum (1/2) (1/2) 2 2 ⟨0, 0, 1, 1, 1/4, 1/4, 1/4, 1/4⟩
    (by norm_num [get_bilinear_interp_params, bilinearCore, pyInt])

/-- C6: on a plane with `height ≥ 1` and `width ≥ 1`, every valid sample
resolves corner indices with `0 ≤ y_low ≤ y_high ≤ height - 1` and
`0 ≤ x_low ≤ x_high ≤ width - 1`; in particular the defensive
nonnegativity guard of `backward_cpu` always passes on valid samples and
the four feature-map reads of `forward_cpu` are in bounds. -/
theorem C6_corner_bounds (y x : ℚ) (h w : ℕ) (hh : 1 ≤ h) (hw : 1 ≤ w)
    (p : BilinearParams) (hp : get_bilinear_interp_params y x h w = some p) :
    0 ≤ p.y_low ∧ p.y_low ≤ p.y_high ∧ p.y_high ≤ (h : ℤ) - 1 ∧
      0 ≤ p.x_low ∧ p.x_low ≤ p.x_high ∧ p.x_high ≤ (w : ℤ) - 1 := by
  rw [get_bilinear_some y x h w p hp]
  exact bilinearCore_corner_bounds y x h w hh hw

/-- Witness for C6 at the concrete valid sample `(1/2, 1/2)` on a 2×2
plane, which resolves to corners `(0,0)`–`(1,1)`. -/
theorem C6_corner_bounds_witness :
    0 ≤ (0:ℤ) ∧ (0:ℤ) ≤ 1 ∧ (1:ℤ) ≤ (2:ℕ) - 1 ∧
      0 ≤ (0:ℤ) ∧ (0:ℤ) ≤ 1 ∧ (1:ℤ) ≤ (2:ℕ) - 1 :=
  C6_corner_bounds (1/2) (1/2) 2 2 (by norm_num) (by norm_num)
    ⟨0, 0, 1, 1, 1/4, 1/4, 1/4, 1/4⟩
    (by norm_num [get_bilinear_interp_params, bilinearCore, pyInt])

/-- C1 (code bug, non-termination): on a perfectly valid input — feature
map of shape `(1,1,2,2)`, one ROI `(-10,-10,-9,-9)` with batch index `0`,
`outsize = (1,1)`, `spatial_scale = 1`, `sampling_ratio = (1,1)` — the
single sample of the single bin falls out of range, the Python `continue`
skips `ix += 1`, and both `forward_cpu` and `backward_cpu` loop forever:
the fuel model returns `none` for every fuel. -/
theorem C1_invalid_sample_loops_forever : ∀ fuelIx fuelIy : ℕ,
    forward_cpu ⟨1, 1, 1, some 1, some 1⟩ (fun _ _ _ _ => 0) 1 2 2
        (fun _ => (-10, -10, -9, -9)) (fun _ => 0) 1 fuelIx fuelIy = none ∧
      backward_cpu ⟨1, 1, 1, some 1, some 1⟩ 1 2 2
        (fun _ => (-10, -10, -9, -9)) (fun _ => 0) (fun _ _ _ _ => 1) 1
        fuelIx fuelIy = none := by
  have hbad : get_bilinear_interp_params
      (sampleY (⟨-10, -10, 1, 1, 1, 1, 1⟩ : BinGeom) 0 0)
      (sampleX (⟨-10, -10, 1, 1, 1, 1, 1⟩ : BinGeom) 0 0) 2 2 = none := by
    norm_num [sampleY, sampleX, get_bilinear_interp_params]
  have hgeq : binGeomScaled ⟨1, 1, 1, some 1, some 1⟩ ((-10 : ℚ) * 1)
      ((-10 : ℚ) * 1) ((-9 : ℚ) * 1) ((-9 : ℚ) * 1) =
      (⟨-10, -10, 1, 1, 1, 1, 1⟩ : BinGeom) := by
    norm_num [binGeomScaled, roiBinGrid]
  intro fuelIx fuelIy
  constructor
  · have hbin : ∀ fx fy : ℕ,
        fwdBin ⟨1, 1, 1, some 1, some 1⟩ (fun _ _ _ _ => 0) 2 2
          (fun _ => (-10, -10, -9, -9)) (fun _ => 0) 0 0 0 0 fx fy = none := by
      intro fx fy
      have hstep : fwdBin ⟨1, 1, 1, some 1, some 1⟩ (fun _ _ _ _ => 0) 2 2
          (fun _ => (-10, -10, -9, -9)) (fun _ => 0) 0 0 0 0 fx fy =
          (fwdLoopIy (fun _ _ _ _ => 0) 2 2 0 0
              (binGeomScaled ⟨1, 1, 1, some 1, some 1⟩ ((-10 : ℚ) * 1)
                ((-10 : ℚ) * 1) ((-9 : ℚ) * 1) ((-9 : ℚ) * 1)) 0 0 fx fy 0
              0).map
            (fun s => s /
              (binGeomScaled ⟨1, 1, 1, some 1, some 1⟩ ((-10 : ℚ) * 1)
                ((-10 : ℚ) * 1) ((-9 : ℚ) * 1) ((-9 : ℚ) * 1)).count) := rfl
      rw [hstep, hgeq]
      rw [fwdLoopIy_stuck (fun _ _ _ _ => 0) 2 2 0 0 ⟨-10, -10, 1, 1, 1, 1, 1⟩
        0 0 fx (by norm_num)
        (fun fuel acc => fwdLoopIx_stuck (fun _ _ _ _ => 0) 2 2 0 0
          ⟨-10, -10, 1, 1, 1, 1, 1⟩ 0 _ 0 (by norm_num) hbad fuel acc) fy 0]
      rfl
    simp only [forward_cpu]
    rw [show (List.range (1 * 1 * 1 * 1)) = [0] from rfl]
    simp [decodeIdx, List.foldl_cons, List.foldl_nil, hbin]
  · have hbin : ∀ fx fy : ℕ, ∀ acc,
        bwdBin ⟨1, 1, 1, some 1, some 1⟩ 2 2 (fun _ => (-10, -10, -9, -9))
          (fun _ => 0) (fun _ _ _ _ => 1) 0 0 0 0 fx fy acc = none := by
      intro fx fy acc
      have hstep : bwdBin ⟨1, 1, 1, some 1, some 1⟩ 2 2
          (fun _ => (-10, -10, -9, -9)) (fun _ => 0) (fun _ _ _ _ => 1)
          0 0 0 0 fx fy acc =
          bwdLoopIy 2 2 0 0
            (binGeomScaled ⟨1, 1, 1, some 1, some 1⟩ ((-10 : ℚ) * 1)
              ((-10 : ℚ) * 1) ((-9 : ℚ) * 1) ((-9 : ℚ) * 1)) 0 0 1 fx fy 0
            acc := rfl
      rw [hstep, hgeq]
      exact bwdLoopIy_stuck 2 2 0 0 ⟨-10, -10, 1, 1, 1, 1, 1⟩ 0 0 1 fx
        (by norm_num)
        (fun fuel acc' => bwdLoopIx_stuck 2 2 0 0 ⟨-10, -10, 1, 1, 1, 1, 1⟩
          0 1 _ 0 (by norm_num) hbad fuel acc') fy acc
    simp only [backward_cpu]
    rw [show (List.range (1 * 1 * 1 * 1)) = [0] from rfl]
    simp [decodeIdx, List.foldl_cons, List.foldl_nil, hbin]

/-- C3 (code bug, non-termination): the claim says a bin whose samples are
all Invalid comes out as exactly `0`; instead, on the very first Invalid
sample `forward_cpu` loops forever (the `continue` skips `ix += 1`), so
the call never returns at all.  Concrete input: feature map `(1,1,3,3)`,
one ROI `(-20,-20,-19,-19)`, `outsize = (1,1)`, `spatial_scale = 1`,
`sampling_ratio = (1,1)` — every sample of the single bin is Invalid. -/
theorem C3_all_invalid_bin_loops_forever : ∀ fuelIx fuelIy : ℕ,
    forward_cpu ⟨1, 1, 1, some 1, some 1⟩ (fun _ _ _ _ => 0) 1 3 3
        (fun _ => (-20, -20, -19, -19)) (fun _ => 0) 1 fuelIx fuelIy =
      none := by
  have hbad : get_bilinear_interp_params
      (sampleY (⟨-20, -20, 1, 1, 1, 1, 1⟩ : BinGeom) 0 0)
      (sampleX (⟨-20, -20, 1, 1, 1, 1, 1⟩ : BinGeom) 0 0) 3 3 = none := by
    norm_num [sampleY, sampleX, get_bilinear_interp_params]
  have hgeq : binGeomScaled ⟨1, 1, 1, some 1, some 1⟩ ((-20 : ℚ) * 1)
      ((-20 : ℚ) * 1) ((-19 : ℚ) * 1) ((-19 : ℚ) * 1) =
      (⟨-20, -20, 1, 1, 1, 1, 1⟩ : BinGeom) := by
    norm_num [binGeomScaled, roiBinGrid]
  intro fuelIx fuelIy
  have hbin : ∀ fx fy : ℕ,
      fwdBin ⟨1, 1, 1, some 1, some 1⟩ (fun _ _ _ _ => 0) 3 3
        (fun _ => (-20, -20, -19, -19)) (fun _ => 0) 0 0 0 0 fx fy = none := by
    intro fx fy
    have hstep : fwdBin ⟨1, 1, 1, some 1, some 1⟩ (fun _ _ _ _ => 0) 3 3
        (fun _ => (-20, -20, -19, -19)) (fun _ => 0) 0 0 0 0 fx fy =
        (fwdLoopIy (fun _ _ _ _ => 0) 3 3 0 0
            (binGeomScaled ⟨1, 1, 1, some 1, some 1⟩ ((-20 : ℚ) * 1)
              ((-20 : ℚ) * 1) ((-19 : ℚ) * 1) ((-19 : ℚ) * 1)) 0 0 fx fy 0
            0).map
          (fun s => s /
            (binGeomScaled ⟨1, 1, 1, some 1, some 1⟩ ((-20 : ℚ) * 1)
              ((-20 : ℚ) * 1) ((-19 : ℚ) * 1) ((-19 : ℚ) * 1)).count) := rfl
    rw [hstep, hgeq]
    rw [fwdLoopIy_stuck (fun _ _ _ _ => 0) 3 3 0 0 ⟨-20, -20, 1, 1, 1, 1, 1⟩
      0 0 fx (by norm_num)
      (fun fuel acc => fwdLoopIx_stuck (fun _ _ _ _ => 0) 3 3 0 0
        ⟨-20, -20, 1, 1, 1, 1, 1⟩ 0 _ 0 (by norm_num) hbad fuel acc) fy 0]
    rfl
  simp only [forward_cpu]
  rw [show (List.range (1 * 1 * 1 * 1)) = [0] from rfl]
  simp [decodeIdx, List.foldl_cons, List.foldl_nil, hbin]

/-! ### Claim theorems: construction-time validation -/

/-- C2 (counterexample): the claim says every non-positive
`spatial_scale`, int or float, is rejected at construction; but the `int`
branch of `__init__` converts with `float(...)` and never checks the sign,
so the Python integer `0` is accepted. -/
theorem C2_counterexample_int_zero_accepted :
    initSpatialScale (PyNumber.int 0) = Except.ok 0 ∧
      ∀ e : String, initSpatialScale (PyNumber.int 0) ≠ Except.error e := by
  constructor
  · simp [initSpatialScale]
  · intro e h
    simp [initSpatialScale] at h

/-- C2 (amended): a float `spatial_scale` is accepted exactly when
strictly positive (a `TypeError` is raised otherwise), while an int of any
sign is converted to float and accepted. -/
theorem C2_amended_spatial_scale_validation (q : ℚ) (n : ℤ) :
    (0 < q → initSpatialScale (PyNumber.float q) = Except.ok q) ∧
      (q ≤ 0 → initSpatialScale (PyNumber.float q) =
        Except.error "spatial_scale must be a positive float number") ∧
      initSpatialScale (PyNumber.int n) = Except.ok (n : ℚ) := by
  refine ⟨fun hq => ?_, fun hq => ?_, rfl⟩
  · simp [initSpatialScale, hq]
  · simp [initSpatialScale, not_lt.mpr hq]

/-- Witness for the amended C2: the float `2` is accepted, the float `-1`
raises, and the int `-3` is accepted. -/
theorem C2_amended_witness :
    initSpatialScale (PyNumber.float 2) = Except.ok 2 ∧
      initSpatialScale (PyNumber.float (-1)) =
        Except.error "spatial_scale must be a positive float number" ∧
      initSpatialScale (PyNumber.int (-3)) = Except.ok ((-3 : ℤ) : ℚ) :=
  ⟨(C2_amended_spatial_scale_validation 2 (-3)).1 (by norm_num),
    (C2_amended_spatial_scale_validation (-1) (-3)).2.1 (by norm_num),
    (C2_amended_spatial_scale_validation (-1) (-3)).2.2⟩

/-! ### Provenance of backward accumulations

Every accumulation recorded by the backward loops targets the batch plane
`roi_batch_ind` and channel `c` of the bin being processed. -/

theorem bwdSampleDeps_batch (b : ℤ) (c : ℕ) (p : BilinearParams)
    (tg cnt : ℚ) (d : GradDep) (hd : d ∈ bwdSampleDeps b c p tg cnt) :
    d.1.1 = b ∧ d.1.2.1 = c := by
  unfold bwdSampleDeps at hd
  split_ifs at hd
  · simp only [List.mem_cons, List.not_mem_nil, or_false] at hd
    rcases hd with rfl | rfl | rfl | rfl <;> exact ⟨rfl, rfl⟩
  · cases hd

theorem bwdLoopIx_mem (H W : ℕ) (b : ℤ) (c : ℕ) (g : BinGeom) (pw : ℕ)
    (tg y : ℚ) :
    ∀ fuel ix acc out,
      bwdLoopIx H W b c g pw tg y fuel ix acc = some out →
      ∀ d ∈ out, d ∈ acc ∨ (d.1.1 = b ∧ d.1.2.1 = c) := by
  intro fuel
  induction fuel with
  | zero => intro ix acc out h; cases h
  | succ n ih =>
      intro ix acc out h d hd
      rw [bwdLoopIx] at h
      by_cases hlt : (ix : ℤ) < g.gridW
      · rw [if_pos hlt] at h
        cases hs : get_bilinear_interp_params y (sampleX g pw ix) H W with
        | none =>
            rw [hs] at h
            exact ih ix acc out h d hd
        | some p =>
            rw [hs] at h
            rcases ih (ix + 1) (acc ++ bwdSampleDeps b c p tg g.count) out
                h d hd with hmem | hP
            · rcases List.mem_append.mp hmem with h1 | h2
              · exact Or.inl h1
              · exact Or.inr (bwdSampleDeps_batch b c p tg g.count d h2)
            · exact Or.inr hP
      · rw [if_neg hlt] at h
        cases Option.some.inj h
        exact Or.inl hd

theorem bwdLoopIy_mem (H W : ℕ) (b : ℤ) (c : ℕ) (g : BinGeom) (ph pw : ℕ)
    (tg : ℚ) (fuelIx : ℕ) :
    ∀ fuelIy iy acc out,
      bwdLoopIy H W b c g ph pw tg fuelIx fuelIy iy acc = some out →
      ∀ d ∈ out, d ∈ acc ∨ (d.1.1 = b ∧ d.1.2.1 = c) := by
  intro fuelIy
  induction fuelIy with
  | zero => intro iy acc out h; cases h
  | succ n ih =>
      intro iy acc out h d hd
      rw [bwdLoopIy] at h
      by_cases hlt : (iy : ℤ) < g.gridH
      · rw [if_pos hlt] at h
        cases hs : bwdLoopIx H W b c g pw tg (sampleY g ph iy) fuelIx 0 acc
            with
        | none => rw [hs] at h; cases h
        | some acc' =>
            rw [hs] at h
            rcases ih (iy + 1) acc' out h d hd with hmem | hP
            · exact bwdLoopIx_mem H W b c g pw tg _ fuelIx 0 acc acc' hs d hmem
            · exact Or.inr hP
      · rw [if_neg hlt] at h
        cases Option.some.inj h
        exact Or.inl hd

theorem foldl_bind_none {α β : Type} (L : List β) (step : β → α → Option α) :
    L.foldl (fun a i => a.bind (step i)) none = none := by
  induction L with
  | nil => rfl
  | cons i L ih =>
      rw [List.foldl_cons]
      exact ih

theorem foldl_bind_preserve (P : GradDep → Prop)
    (step : ℕ → List GradDep → Option (List GradDep)) :
    ∀ L : List ℕ,
      (∀ i ∈ L, ∀ acc out, step i acc = some out →
        ∀ d ∈ out, d ∈ acc ∨ P d) →
      ∀ acc l, (∀ d ∈ acc, P d) →
        L.foldl (fun a i => a.bind (step i)) (some acc) = some l →
        ∀ d ∈ l, P d := by
  intro L
  induction L with
  | nil =>
      intro _ acc l hacc h
      rw [List.foldl_nil] at h
      cases Option.some.inj h
      exact hacc
  | cons i L ih =>
      intro hstep acc l hacc h
      rw [List.foldl_cons] at h
      cases hs : step i acc with
      | none =>
          rw [show (some acc).bind (step i) = none by simp [hs]] at h
          rw [foldl_bind_none] at h
          cases h
      | some acc' =>
          rw [show (some acc).bind (step i) = some acc' by simp [hs]] at h
          refine ih (fun j hj => hstep j (List.mem_cons_of_mem i hj)) acc' l
            ?_ h
          intro d hd
          rcases hstep i (List.mem_cons_self i L) acc acc' hs d hd with
            hmem | hP
          · exact hacc d hmem
          · exact hP

theorem decode_n_lt (n c oh ow i : ℕ) (hi : i < n * c * oh * ow) :
    i / ow / oh / c < n := by
  have how : 0 < ow := by
    rcases Nat.eq_zero_or_pos ow with h | h
    · subst h; simp at hi
    · exact h
  have hoh : 0 < oh := by
    rcases Nat.eq_zero_or_pos oh with h | h
    · subst h; simp at hi
    · exact h
  have hc : 0 < c := by
    rcases Nat.eq_zero_or_pos c with h | h
    · subst h; simp at hi
    · exact h
  have h1 : i / ow < n * c * oh := (Nat.div_lt_iff_lt_mul how).mpr hi
  have h2 : i / ow / oh < n * c := (Nat.div_lt_iff_lt_mul hoh).mpr h1
  exact (Nat.div_lt_iff_lt_mul hc).mpr h2

/-- C10: every recorded accumulation of `backward_cpu` targets the batch
plane of some ROI, so when the call returns, any batch plane whose index
occurs in no ROI is identically zero in the recovered gradient array. -/
theorem C10_untouched_batch_plane_is_zero (cfg : AlignConfig) (C H W : ℕ)
    (rois : ℕ → ℚ × ℚ × ℚ × ℚ) (idx : ℕ → ℤ)
    (topDiff : ℕ → ℕ → ℕ → ℕ → ℚ) (nRois fuelIx fuelIy : ℕ) (b : ℤ)
    (hb : ∀ n, n < nRois → idx n ≠ b) (l : List GradDep)
    (hrun : backward_cpu cfg C H W rois idx topDiff nRois fuelIx fuelIy =
      some l) :
    ∀ c y x, bottomDiffAt l (b, c, y, x) = 0 := by
  simp only [backward_cpu] at hrun
  have hP : ∀ d ∈ l, ∃ n, n < nRois ∧ d.1.1 = idx n := by
    refine foldl_bind_preserve _
      (fun i a =>
        bwdBin cfg H W rois idx topDiff (decodeIdx C cfg.outh cfg.outw i).1
          (decodeIdx C cfg.outh cfg.outw i).2.1
          (decodeIdx C cfg.outh cfg.outw i).2.2.1
          (decodeIdx C cfg.outh cfg.outw i).2.2.2 fuelIx fuelIy a)
      (List.range (nRois * C * cfg.outh * cfg.outw)) ?_ [] l (by simp) hrun
    intro i hi acc out hout d hd
    rcases bwdLoopIy_mem H W (idx (decodeIdx C cfg.outh cfg.outw i).1)
        (decodeIdx C cfg.outh cfg.outw i).2.1
        (binGeom cfg (rois (decodeIdx C cfg.outh cfg.outw i).1))
        (decodeIdx C cfg.outh cfg.outw i).2.2.1
        (decodeIdx C cfg.outh cfg.outw i).2.2.2
        (topDiff (decodeIdx C cfg.outh cfg.outw i).1
          (decodeIdx C cfg.outh cfg.outw i).2.1
          (decodeIdx C cfg.outh cfg.outw i).2.2.1
          (decodeIdx C cfg.outh cfg.outw i).2.2.2)
        fuelIx fuelIy 0 acc out hout d hd with hmem | hPd
    · exact Or.inl hmem
    · exact Or.inr ⟨(decodeIdx C cfg.outh cfg.outw i).1,
        decode_n_lt nRois C cfg.outh cfg.outw i (List.mem_range.mp hi),
        hPd.1⟩
  intro c y x
  unfold bottomDiffAt
  have hfil : (l.filter fun d => decide (d.1 = (b, c, y, x))) = [] := by
    rw [List.filter_eq_nil_iff]
    intro d hd
    obtain ⟨n, hn, hbd⟩ := hP d hd
    simp only [decide_eq_true_eq]
    intro heq
    exact hb n hn (by rw [← hbd, heq])
  rw [hfil]
  rfl

/-- Witness for C10 on a concrete terminating run: one ROI with batch
index 0 on a `(2,1,2,2)`-shaped gradient, whose four recorded
accumulations all land on plane 0, so the untouched plane-1 cell
`(1,0,0,0)` is zero. -/
theorem C10_witness :
    bottomDiffAt
      [((0, 0, 1, 1), 1), ((0, 0, 1, 1), 0), ((0, 0, 1, 1), 0),
        ((0, 0, 1, 1), 0)] (1, 0, 0, 0) = 0 :=
  C10_untouched_batch_plane_is_zero ⟨1, 1, 1, some 1, some 1⟩ 1 2 2
    (fun _ => (0, 0, 2, 2)) (fun _ => 0) (fun _ _ _ _ => 1) 1 2 2 1
    (by intro n hn; norm_num) _
    (by simp only [backward_cpu]
        rw [show (List.range (1 * 1 * 1 * 1)) = [0] from rfl]
        simp only [List.foldl_cons, List.foldl_nil]
        norm_num [bwdBin, bwdLoopIy, bwdLoopIx, bwdSampleDeps, binGeom,
          binGeomScaled, roiBinGrid, sampleY, sampleX,
          get_bilinear_interp_params, bilinearCore, pyInt, decodeIdx])
    0 0 0

/-! ### Description of a terminating backward run

When every sample of a bin is valid, the backward loops terminate and the
recorded accumulations are described by the following explicit lists. -/

/-- The accumulations recorded at one sample position (empty when the
sample is Invalid). -/
def sampleDepsAt (H W : ℕ) (b : ℤ) (c : ℕ) (g : BinGeom) (pw : ℕ)
    (tg y : ℚ) (ix : ℕ) : List GradDep :=
  match get_bilinear_interp_params y (sampleX g pw ix) H W with
  | none => []
  | some p => bwdSampleDeps b c p tg g.count

/-- The accumulations of `k` consecutive sample positions starting at
`ix`, in loop order. -/
def rowDepsN (H W : ℕ) (b : ℤ) (c : ℕ) (g : BinGeom) (pw : ℕ) (tg y : ℚ) :
    ℕ → ℕ → List GradDep
  | 0, _ => []
  | k + 1, ix =>
      sampleDepsAt H W b c g pw tg y ix ++
        rowDepsN H W b c g pw tg y k (ix + 1)

/-- The accumulations of `k` consecutive sample rows starting at `iy`, in
loop order. -/
def binDepsN (H W : ℕ) (b : ℤ) (c : ℕ) (g : BinGeom) (ph pw : ℕ) (tg : ℚ) :
    ℕ → ℕ → List GradDep
  | 0, _ => []
  | k + 1, iy =>
      rowDepsN H W b c g pw tg (sampleY g ph iy) g.gridW.toNat 0 ++
        binDepsN H W b c g ph pw tg k (iy + 1)

/-- All accumulations of one bin. -/
def binDeps (H W : ℕ) (b : ℤ) (c : ℕ) (g : BinGeom) (ph pw : ℕ)
    (tg : ℚ) : List GradDep :=
  binDepsN H W b c g ph pw tg g.gridH.toNat 0

theorem depTotal_append (l1 l2 : List GradDep) :
    depTotal (l1 ++ l2) = depTotal l1 + depTotal l2 := by
  unfold depTotal
  rw [List.map_append, List.sum_append]

theorem bwdLoopIx_run (H W : ℕ) (b : ℤ) (c : ℕ) (g : BinGeom) (pw : ℕ)
    (tg y : ℚ)
    (hval : ∀ ix : ℕ, (ix : ℤ) < g.gridW →
      (get_bilinear_interp_params y (sampleX g pw ix) H W).isSome = true) :
    ∀ fuel k ix : ℕ, ∀ acc : List GradDep,
      k = (g.gridW - (ix : ℤ)).toNat → k < fuel →
      bwdLoopIx H W b c g pw tg y fuel ix acc =
        some (acc ++ rowDepsN H W b c g pw tg y k ix) := by
  intro fuel
  induction fuel with
  | zero => intro k ix acc hk hf; omega
  | succ m ih =>
      intro k ix acc hk hf
      rw [bwdLoopIx]
      by_cases hlt : (ix : ℤ) < g.gridW
      · rw [if_pos hlt]
        obtain ⟨p, hp⟩ := Option.isSome_iff_exists.mp (hval ix hlt)
        rw [hp]
        show bwdLoopIx H W b c g pw tg y m (ix + 1)
            (acc ++ bwdSampleDeps b c p tg g.count) =
          some (acc ++ rowDepsN H W b c g pw tg y k ix)
        cases k with
        | zero => omega
        | succ q =>
            rw [ih q (ix + 1) (acc ++ bwdSampleDeps b c p tg g.count)
              (by push_cast; omega) (by omega)]
            have hs : sampleDepsAt H W b c g pw tg y ix =
                bwdSampleDeps b c p tg g.count := by
              unfold sampleDepsAt
              rw [hp]
            rw [show rowDepsN H W b c g pw tg y (q + 1) ix =
                sampleDepsAt H W b c g pw tg y ix ++
                  rowDepsN H W b c g pw tg y q (ix + 1) from rfl]
            rw [hs, List.append_assoc]
      · rw [if_neg hlt]
        cases k with
        | succ q => omega
        | zero =>
            rw [show rowDepsN H W b c g pw tg y 0 ix = [] from rfl]
            rw [List.append_nil]

theorem bwdLoopIy_run (H W : ℕ) (b : ℤ) (c : ℕ) (g : BinGeom) (ph pw : ℕ)
    (tg : ℚ) (fuelIx : ℕ)
    (hval : ∀ iy ix : ℕ, (iy : ℤ) < g.gridH → (ix : ℤ) < g.gridW →
      (get_bilinear_interp_params (sampleY g ph iy) (sampleX g pw ix) H
        W).isSome = true)
    (hfx : g.gridW.toNat < fuelIx) :
    ∀ fuelIy k iy : ℕ, ∀ acc : List GradDep,
      k = (g.gridH - (iy : ℤ)).toNat → k < fuelIy →
      bwdLoopIy H W b c g ph pw tg fuelIx fuelIy iy acc =
        some (acc ++ binDepsN H W b c g ph pw tg k iy) := by
  intro fuelIy
  induction fuelIy with
  | zero => intro k iy acc hk hf; omega
  | succ m ih =>
      intro k iy acc hk hf
      rw [bwdLoopIy]
      by_cases hlt : (iy : ℤ) < g.gridH
      · rw [if_pos hlt]
        rw [bwdLoopIx_run H W b c g pw tg (sampleY g ph iy)
          (fun ix hix => hval iy ix hlt hix) fuelIx g.gridW.toNat 0 acc
          (by push_cast; omega) hfx]
        show bwdLoopIy H W b c g ph pw tg fuelIx m (iy + 1)
            (acc ++ rowDepsN H W b c g pw tg (sampleY g ph iy)
              g.gridW.toNat 0) =
          some (acc ++ binDepsN H W b c g ph pw tg k iy)
        cases k with
        | zero => omega
        | succ q =>
            rw [ih q (iy + 1) _ (by push_cast; omega) (by omega)]
            rw [show binDepsN H W b c g ph pw tg (q + 1) iy =
                rowDepsN H W b c g pw tg (sampleY g ph iy) g.gridW.toNat 0 ++
                  binDepsN H W b c g ph pw tg q (iy + 1) from rfl]
            rw [List.append_assoc]
      · rw [if_neg hlt]
        cases k with
        | succ q => omega
        | zero =>
            rw [show binDepsN H W b c g ph pw tg 0 iy = [] from rfl]
            rw [List.append_nil]

theorem bwdBin_run (cfg : AlignConfig) (H W : ℕ)
    (rois : ℕ → ℚ × ℚ × ℚ × ℚ) (idx : ℕ → ℤ)
    (topDiff : ℕ → ℕ → ℕ → ℕ → ℚ) (n c ph pw : ℕ) (fuelIx fuelIy : ℕ)
    (acc : List GradDep)
    (hval : ∀ iy ix : ℕ, (iy : ℤ) < (binGeom cfg (rois n)).gridH →
      (ix : ℤ) < (binGeom cfg (rois n)).gridW →
      (get_bilinear_interp_params (sampleY (binGeom cfg (rois n)) ph iy)
        (sampleX (binGeom cfg (rois n)) pw ix) H W).isSome = true)
    (hfx : (binGeom cfg (rois n)).gridW.toNat < fuelIx)
    (hfy : (binGeom cfg (rois n)).gridH.toNat < fuelIy) :
    bwdBin cfg H W rois idx topDiff n c ph pw fuelIx fuelIy acc =
      some (acc ++ binDeps H W (idx n) c (binGeom cfg (rois n)) ph pw
        (topDiff n c ph pw)) := by
  unfold bwdBin binDeps
  exact bwdLoopIy_run H W (idx n) c (binGeom cfg (rois n)) ph pw
    (topDiff n c ph pw) fuelIx hval hfx fuelIy
    (binGeom cfg (rois n)).gridH.toNat 0 acc (by push_cast; omega) hfy

theorem sampleDepsAt_total (H W : ℕ) (hH : 1 ≤ H) (hW : 1 ≤ W) (b : ℤ)
    (c : ℕ) (g : BinGeom) (pw : ℕ) (tg y : ℚ) (ix : ℕ)
    (hval : (get_bilinear_interp_params y (sampleX g pw ix) H W).isSome =
      true) :
    depTotal (sampleDepsAt H W b c g pw tg y ix) = tg / g.count := by
  obtain ⟨p, hp⟩ := Option.isSome_iff_exists.mp hval
  have hcore := get_bilinear_some _ _ _ _ _ hp
  have hbnd := bilinearCore_corner_bounds y (sampleX g pw ix) H W hH hW
  rw [← hcore] at hbnd
  have hwsum : p.w1 + p.w2 + p.w3 + p.w4 = 1 := by
    rw [hcore]
    exact bilinearCore_weight_sum _ _ _ _
  unfold sampleDepsAt
  rw [hp]
  show depTotal (bwdSampleDeps b c p tg g.count) = tg / g.count
  unfold bwdSampleDeps
  rw [if_pos ⟨hbnd.2.2.2.1, le_trans hbnd.2.2.2.1 hbnd.2.2.2.2.1, hbnd.1,
    le_trans hbnd.1 hbnd.2.1⟩]
  unfold depTotal
  simp only [List.map_cons, List.map_nil, List.sum_cons, List.sum_nil]
  have hsplit : tg * p.w1 / g.count + (tg * p.w2 / g.count +
      (tg * p.w3 / g.count + (tg * p.w4 / g.count + 0))) =
      tg * (p.w1 + p.w2 + p.w3 + p.w4) / g.count := by ring
  rw [hsplit, hwsum, mul_one]

theorem rowDepsN_total (H W : ℕ) (hH : 1 ≤ H) (hW : 1 ≤ W) (b : ℤ) (c : ℕ)
    (g : BinGeom) (pw : ℕ) (tg y : ℚ) :
    ∀ k ix : ℕ,
      (∀ j : ℕ, j < k →
        (get_bilinear_interp_params y (sampleX g pw (ix + j)) H W).isSome =
          true) →
      depTotal (rowDepsN H W b c g pw tg y k ix) = (k : ℚ) * (tg / g.count) := by
  intro k
  induction k with
  | zero => intro ix _; simp [rowDepsN, depTotal]
  | succ k ih =>
      intro ix hval
      rw [show rowDepsN H W b c g pw tg y (k + 1) ix =
          sampleDepsAt H W b c g pw tg y ix ++
            rowDepsN H W b c g pw tg y k (ix + 1) from rfl]
      rw [depTotal_append]
      have h0 : (get_bilinear_interp_params y (sampleX g pw ix) H
          W).isSome = true := by
        have := hval 0 (by omega)
        rwa [Nat.add_zero] at this
      rw [sampleDepsAt_total H W hH hW b c g pw tg y ix h0]
      rw [ih (ix + 1) (fun j hj => by
        have := hval (j + 1) (by omega)
        rwa [show ix + (j + 1) = ix + 1 + j by omega] at this)]
      push_cast
      ring

theorem binDepsN_total (H W : ℕ) (hH : 1 ≤ H) (hW : 1 ≤ W) (b : ℤ) (c : ℕ)
    (g : BinGeom) (ph pw : ℕ) (tg : ℚ) :
    ∀ k iy : ℕ,
      (∀ j ix : ℕ, j < k → (ix : ℤ) < g.gridW →
        (get_bilinear_interp_params (sampleY g ph (iy + j))
          (sampleX g pw ix) H W).isSome = true) →
      depTotal (binDepsN H W b c g ph pw tg k iy) =
        (k : ℚ) * ((g.gridW.toNat : ℚ) * (tg / g.count)) := by
  intro k
  induction k with
  | zero => intro iy _; simp [binDepsN, depTotal]
  | succ k ih =>
      intro iy hval
      rw [show binDepsN H W b c g ph pw tg (k + 1) iy =
          rowDepsN H W b c g pw tg (sampleY g ph iy) g.gridW.toNat 0 ++
            binDepsN H W b c g ph pw tg k (iy + 1) from rfl]
      rw [depTotal_append]
      rw [rowDepsN_total H W hH hW b c g pw tg (sampleY g ph iy)
        g.gridW.toNat 0 (fun j hj => by
          have := hval 0 j (by omega) (by omega)
          rw [Nat.add_zero] at this
          rwa [Nat.zero_add])]
      rw [ih (iy + 1) (fun j ix hj hix => by
        have := hval (j + 1) ix (by omega) hix
        rwa [show iy + (j + 1) = iy + 1 + j by omega] at this)]
      push_cast
      ring

theorem binDeps_total (H W : ℕ) (hH : 1 ≤ H) (hW : 1 ≤ W) (b : ℤ) (c : ℕ)
    (g : BinGeom) (ph pw : ℕ) (tg : ℚ) (hgh : 1 ≤ g.gridH)
    (hgw : 1 ≤ g.gridW)
    (hcnt : g.count = (g.gridH : ℚ) * (g.gridW : ℚ))
    (hval : ∀ iy ix : ℕ, (iy : ℤ) < g.gridH → (ix : ℤ) < g.gridW →
      (get_bilinear_interp_params (sampleY g ph iy) (sampleX g pw ix) H
        W).isSome = true) :
    depTotal (binDeps H W b c g ph pw tg) = tg := by
  unfold binDeps
  rw [binDepsN_total H W hH hW b c g ph pw tg g.gridH.toNat 0
    (fun j ix hj hix => hval (0 + j) ix (by omega) hix)]
  have hch : ((g.gridH.toNat : ℕ) : ℚ) = ((g.gridH : ℤ) : ℚ) := by
    exact_mod_cast congrArg (fun z : ℤ => (z : ℚ))
      (Int.toNat_of_nonneg (show (0 : ℤ) ≤ g.gridH by omega))
  have hcw : ((g.gridW.toNat : ℕ) : ℚ) = ((g.gridW : ℤ) : ℚ) := by
    exact_mod_cast congrArg (fun z : ℤ => (z : ℚ))
      (Int.toNat_of_nonneg (show (0 : ℤ) ≤ g.gridW by omega))
  rw [hch, hcw, hcnt]
  have h1 : ((g.gridH : ℤ) : ℚ) ≠ 0 := by
    exact_mod_cast (by omega : g.gridH ≠ 0)
  have h2 : ((g.gridW : ℤ) : ℚ) ≠ 0 := by
    exact_mod_cast (by omega : g.gridW ≠ 0)
  field_simp
  ring

theorem binGeom_grid_pos (cfg : AlignConfig) (hcfg : ConfigValid cfg)
    (roi : ℚ × ℚ × ℚ × ℚ) :
    1 ≤ (binGeom cfg roi).gridH ∧ 1 ≤ (binGeom cfg roi).gridW := by
  obtain ⟨h1, h2, h3, h4⟩ := hcfg
  constructor
  · exact one_le_roiBinGrid _ h3 _ (le_max_right _ 1) _ h1
  · exact one_le_roiBinGrid _ h4 _ (le_max_right _ 1) _ h2

theorem mem_shapeCells (B C H W : ℕ) (b : ℤ) (c : ℕ) (yy xx : ℤ)
    (hb0 : 0 ≤ b) (hbB : b ≤ (B : ℤ) - 1) (hc : c < C) (hy0 : 0 ≤ yy)
    (hyH : yy ≤ (H : ℤ) - 1) (hx0 : 0 ≤ xx) (hxW : xx ≤ (W : ℤ) - 1) :
    ((b, c, yy, xx) : GradKey) ∈ shapeCells B C H W := by
  unfold shapeCells
  exact Finset.mem_product.mpr ⟨Finset.mem_Icc.mpr ⟨hb0, hbB⟩,
    Finset.mem_product.mpr ⟨Finset.mem_range.mpr hc,
      Finset.mem_product.mpr ⟨Finset.mem_Icc.mpr ⟨hy0, hyH⟩,
        Finset.mem_Icc.mpr ⟨hx0, hxW⟩⟩⟩⟩

theorem sampleDepsAt_keys (B C H W : ℕ) (hH : 1 ≤ H) (hW : 1 ≤ W) (b : ℤ)
    (hb0 : 0 ≤ b) (hbB : b < (B : ℤ)) (c : ℕ) (hc : c < C) (g : BinGeom)
    (pw : ℕ) (tg y : ℚ) (ix : ℕ) :
    ∀ d ∈ sampleDepsAt H W b c g pw tg y ix, d.1 ∈ shapeCells B C H W := by
  intro d hd
  unfold sampleDepsAt at hd
  cases hg : get_bilinear_interp_params y (sampleX g pw ix) H W with
  | none => rw [hg] at hd; cases hd
  | some p =>
      rw [hg] at hd
      have hcore := get_bilinear_some _ _ _ _ _ hg
      have hbnd := bilinearCore_corner_bounds y (sampleX g pw ix) H W hH hW
      rw [← hcore] at hbnd
      obtain ⟨hyl, hylh, hyh, hxl, hxlh, hxh⟩ := hbnd
      have hd' : d ∈ bwdSampleDeps b c p tg g.count := hd
      unfold bwdSampleDeps at hd'
      split_ifs at hd'
      · simp only [List.mem_cons, List.not_mem_nil, or_false] at hd'
        rcases hd' with rfl | rfl | rfl | rfl <;>
          exact mem_shapeCells B C H W _ _ _ _ hb0 (by omega) hc (by omega)
            (by omega) (by omega) (by omega)
      · cases hd'

theorem rowDepsN_keys (B C H W : ℕ) (hH : 1 ≤ H) (hW : 1 ≤ W) (b : ℤ)
    (hb0 : 0 ≤ b) (hbB : b < (B : ℤ)) (c : ℕ) (hc : c < C) (g : BinGeom)
    (pw : ℕ) (tg y : ℚ) :
    ∀ k ix : ℕ, ∀ d ∈ rowDepsN H W b c g pw tg y k ix,
      d.1 ∈ shapeCells B C H W := by
  intro k
  induction k with
  | zero => intro ix d hd; cases hd
  | succ k ih =>
      intro ix d hd
      rw [show rowDepsN H W b c g pw tg y (k + 1) ix =
          sampleDepsAt H W b c g pw tg y ix ++
            rowDepsN H W b c g pw tg y k (ix + 1) from rfl] at hd
      rcases List.mem_append.mp hd with h1 | h2
      · exact sampleDepsAt_keys B C H W hH hW b hb0 hbB c hc g pw tg y ix
          d h1
      · exact ih (ix + 1) d h2

theorem binDepsN_keys (B C H W : ℕ) (hH : 1 ≤ H) (hW : 1 ≤ W) (b : ℤ)
    (hb0 : 0 ≤ b) (hbB : b < (B : ℤ)) (c : ℕ) (hc : c < C) (g : BinGeom)
    (ph pw : ℕ) (tg : ℚ) :
    ∀ k iy : ℕ, ∀ d ∈ binDepsN H W b c g ph pw tg k iy,
      d.1 ∈ shapeCells B C H W := by
  intro k
  induction k with
  | zero => intro iy d hd; cases hd
  | succ k ih =>
      intro iy d hd
      rw [show binDepsN H W b c g ph pw tg (k + 1) iy =
          rowDepsN H W b c g pw tg (sampleY g ph iy) g.gridW.toNat 0 ++
            binDepsN H W b c g ph pw tg k (iy + 1) from rfl] at hd
      rcases List.mem_append.mp hd with h1 | h2
      · exact rowDepsN_keys B C H W hH hW b hb0 hbB c hc g pw tg
          (sampleY g ph iy) g.gridW.toNat 0 d h1
      · exact ih (iy + 1) d h2

/-! ### Recovering the array sum from the accumulation record -/

theorem cellSum_eq_depTotal (S : Finset GradKey) :
    ∀ l : List GradDep, (∀ d ∈ l, d.1 ∈ S) → cellSum S l = depTotal l := by
  intro l
  induction l with
  | nil =>
      intro _
      simp [cellSum, bottomDiffAt, depTotal]
  | cons d l ih =>
      intro hmem
      have hl : ∀ e ∈ l, e.1 ∈ S := fun e he =>
        hmem e (List.mem_cons_of_mem d he)
      have hsplit : ∀ p, bottomDiffAt (d :: l) p =
          (if d.1 = p then d.2 else 0) + bottomDiffAt l p := by
        intro p
        unfold bottomDiffAt
        rw [List.filter_cons]
        by_cases h : d.1 = p
        · simp [h]
        · simp [h]
      unfold cellSum
      rw [Finset.sum_congr rfl fun p _ => hsplit p, Finset.sum_add_distrib]
      rw [show (∑ p ∈ S, bottomDiffAt l p) = cellSum S l from rfl, ih hl]
      rw [Finset.sum_ite_eq S d.1 fun _ => d.2,
        if_pos (hmem d (List.mem_cons_self d l))]
      unfold depTotal
      rw [List.map_cons, List.sum_cons]

theorem foldl_bind_append (step : ℕ → List GradDep → Option (List GradDep))
    (depOf : ℕ → List GradDep) :
    ∀ L : List ℕ, (∀ i ∈ L, ∀ acc, step i acc = some (acc ++ depOf i)) →
      ∀ acc0, L.foldl (fun a i => a.bind (step i)) (some acc0) =
        some (acc0 ++ L.flatMap depOf) := by
  intro L
  induction L with
  | nil =>
      intro _ acc0
      simp
  | cons i L ih =>
      intro hstep acc0
      rw [List.foldl_cons,
        show (some acc0).bind (step i) = some (acc0 ++ depOf i) from by
          simp [hstep i (List.mem_cons_self i L) acc0],
        ih (fun j hj => hstep j (List.mem_cons_of_mem i hj)) (acc0 ++ depOf i),
        List.flatMap_cons, List.append_assoc]

theorem depTotal_flatMap_range (f : ℕ → List GradDep) (n : ℕ) :
    depTotal ((List.range n).flatMap f) = ∑ j ∈ Finset.range n, depTotal (f j) := by
  induction n with
  | zero => simp [depTotal]
  | succ m ih =>
      rw [List.range_succ, List.flatMap_append, depTotal_append, ih,
        Finset.sum_range_succ]
      congr 1
      simp

/-! ### Flat loop index enumeration versus the 4D index space -/

theorem mul_add_div_self_eq (q r b : ℕ) (hr : r < b) : (q * b + r) / b = q := by
  rw [mul_comm, Nat.mul_add_div (by omega), Nat.div_eq_of_lt hr]
  omega

theorem mul_add_mod_self_eq (q r b : ℕ) (hr : r < b) : (q * b + r) % b = r := by
  rw [add_comm, Nat.add_mul_mod_self_right, Nat.mod_eq_of_lt hr]

theorem sum_range_mul_decomp (b : ℕ) (f : ℕ → ℚ) (a : ℕ) :
    ∑ i ∈ Finset.range (a * b), f i =
      ∑ q ∈ Finset.range a, ∑ r ∈ Finset.range b, f (q * b + r) := by
  induction a with
  | zero => simp
  | succ n ih =>
      rw [Finset.sum_range_succ, ← ih, Nat.succ_mul,
        ← Finset.sum_range_add_sum_Ico f (Nat.le_add_right (n * b) b)]
      congr 1
      rw [Finset.sum_Ico_eq_sum_range, Nat.add_sub_cancel_left]

theorem sum_decode (N C OH OW : ℕ) (f : ℕ → ℕ → ℕ → ℕ → ℚ) :
    ∑ i ∈ Finset.range (N * C * OH * OW),
        f (decodeIdx C OH OW i).1 (decodeIdx C OH OW i).2.1
          (decodeIdx C OH OW i).2.2.1 (decodeIdx C OH OW i).2.2.2 =
      ∑ n ∈ Finset.range N, ∑ c ∈ Finset.range C, ∑ ph ∈ Finset.range OH,
        ∑ pw ∈ Finset.range OW, f n c ph pw := by
  simp only [decodeIdx]
  rw [sum_range_mul_decomp OW _ (N * C * OH)]
  have s1 : ∀ q ∈ Finset.range (N * C * OH),
      (∑ r ∈ Finset.range OW,
          f ((q * OW + r) / OW / OH / C) ((q * OW + r) / OW / OH % C)
            ((q * OW + r) / OW % OH) ((q * OW + r) % OW)) =
        ∑ r ∈ Finset.range OW, f (q / OH / C) (q / OH % C) (q % OH) r := by
    intro q _
    refine Finset.sum_congr rfl fun r hr => ?_
    have hrlt := Finset.mem_range.mp hr
    rw [mul_add_div_self_eq q r OW hrlt, mul_add_mod_self_eq q r OW hrlt]
  rw [Finset.sum_congr rfl s1, sum_range_mul_decomp OH _ (N * C)]
  have s2 : ∀ u ∈ Finset.range (N * C),
      (∑ s ∈ Finset.range OH, ∑ r ∈ Finset.range OW,
          f ((u * OH + s) / OH / C) ((u * OH + s) / OH % C)
            ((u * OH + s) % OH) r) =
        ∑ s ∈ Finset.range OH, ∑ r ∈ Finset.range OW,
          f (u / C) (u % C) s r := by
    intro u _
    refine Finset.sum_congr rfl fun s hs =>
      Finset.sum_congr rfl fun r _ => ?_
    have hslt := Finset.mem_range.mp hs
    rw [mul_add_div_self_eq u s OH hslt, mul_add_mod_self_eq u s OH hslt]
  rw [Finset.sum_congr rfl s2, sum_range_mul_decomp C _ N]
  refine Finset.sum_congr rfl fun v _ => Finset.sum_congr rfl fun c hc => ?_
  have hclt := Finset.mem_range.mp hc
  rw [mul_add_div_self_eq v c C hclt, mul_add_mod_self_eq v c C hclt]

theorem backward_single_roi_run (cfg : AlignConfig) (C H W : ℕ)
    (houth : 1 ≤ cfg.outh) (houtw : 1 ≤ cfg.outw) (roi : ℚ × ℚ × ℚ × ℚ)
    (bIdx : ℤ) (topDiff : ℕ → ℕ → ℕ → ℕ → ℚ) (fuelIx fuelIy : ℕ)
    (hfx : (binGeom cfg roi).gridW.toNat < fuelIx)
    (hfy : (binGeom cfg roi).gridH.toNat < fuelIy)
    (hval : ∀ ph pw iy ix : ℕ, ph < cfg.outh → pw < cfg.outw →
      (iy : ℤ) < (binGeom cfg roi).gridH →
      (ix : ℤ) < (binGeom cfg roi).gridW →
      (get_bilinear_interp_params (sampleY (binGeom cfg roi) ph iy)
        (sampleX (binGeom cfg roi) pw ix) H W).isSome = true) :
    backward_cpu cfg C H W (fun _ => roi) (fun _ => bIdx) topDiff 1
        fuelIx fuelIy =
      some ((List.range (1 * C * cfg.outh * cfg.outw)).flatMap fun i =>
        binDeps H W bIdx (decodeIdx C cfg.outh cfg.outw i).2.1
          (binGeom cfg roi) (decodeIdx C cfg.outh cfg.outw i).2.2.1
          (decodeIdx C cfg.outh cfg.outw i).2.2.2
          (topDiff (decodeIdx C cfg.outh cfg.outw i).1
            (decodeIdx C cfg.outh cfg.outw i).2.1
            (decodeIdx C cfg.outh cfg.outw i).2.2.1
            (decodeIdx C cfg.outh cfg.outw i).2.2.2)) := by
  have hstep : ∀ i ∈ List.range (1 * C * cfg.outh * cfg.outw),
      ∀ acc : List GradDep,
      (fun i l => bwdBin cfg H W (fun _ => roi) (fun _ => bIdx) topDiff
        (decodeIdx C cfg.outh cfg.outw i).1
        (decodeIdx C cfg.outh cfg.outw i).2.1
        (decodeIdx C cfg.outh cfg.outw i).2.2.1
        (decodeIdx C cfg.outh cfg.outw i).2.2.2 fuelIx fuelIy l) i acc =
      some (acc ++ binDeps H W bIdx (decodeIdx C cfg.outh cfg.outw i).2.1
        (binGeom cfg roi) (decodeIdx C cfg.outh cfg.outw i).2.2.1
        (decodeIdx C cfg.outh cfg.outw i).2.2.2
        (topDiff (decodeIdx C cfg.outh cfg.outw i).1
          (decodeIdx C cfg.outh cfg.outw i).2.1
          (decodeIdx C cfg.outh cfg.outw i).2.2.1
          (decodeIdx C cfg.outh cfg.outw i).2.2.2)) := by
    intro i hi acc
    exact bwdBin_run cfg H W (fun _ => roi) (fun _ => bIdx) topDiff
      (decodeIdx C cfg.outh cfg.outw i).1
      (decodeIdx C cfg.outh cfg.outw i).2.1
      (decodeIdx C cfg.outh cfg.outw i).2.2.1
      (decodeIdx C cfg.outh cfg.outw i).2.2.2 fuelIx fuelIy acc
      (fun iy ix hiy hix =>
        hval (decodeIdx C cfg.outh cfg.outw i).2.2.1
          (decodeIdx C cfg.outh cfg.outw i).2.2.2 iy ix
          (Nat.mod_lt _ (by omega)) (Nat.mod_lt _ (by omega)) hiy hix)
      hfx hfy
  have hrun := foldl_bind_append _ _
    (List.range (1 * C * cfg.outh * cfg.outw)) hstep []
  rw [List.nil_append] at hrun
  exact hrun

theorem backward_single_roi_total (cfg : AlignConfig)
    (hcfg : ConfigValid cfg) (C H W : ℕ) (hH : 1 ≤ H) (hW : 1 ≤ W)
    (roi : ℚ × ℚ × ℚ × ℚ) (bIdx : ℤ) (topDiff : ℕ → ℕ → ℕ → ℕ → ℚ)
    (hval : ∀ ph pw iy ix : ℕ, ph < cfg.outh → pw < cfg.outw →
      (iy : ℤ) < (binGeom cfg roi).gridH →
      (ix : ℤ) < (binGeom cfg roi).gridW →
      (get_bilinear_interp_params (sampleY (binGeom cfg roi) ph iy)
        (sampleX (binGeom cfg roi) pw ix) H W).isSome = true) :
    depTotal ((List.range (1 * C * cfg.outh * cfg.outw)).flatMap fun i =>
        binDeps H W bIdx (decodeIdx C cfg.outh cfg.outw i).2.1
          (binGeom cfg roi) (decodeIdx C cfg.outh cfg.outw i).2.2.1
          (decodeIdx C cfg.outh cfg.outw i).2.2.2
          (topDiff (decodeIdx C cfg.outh cfg.outw i).1
            (decodeIdx C cfg.outh cfg.outw i).2.1
            (decodeIdx C cfg.outh cfg.outw i).2.2.1
            (decodeIdx C cfg.outh cfg.outw i).2.2.2)) =
      ∑ c ∈ Finset.range C, ∑ ph ∈ Finset.range cfg.outh,
        ∑ pw ∈ Finset.range cfg.outw, topDiff 0 c ph pw := by
  obtain ⟨hgh, hgw⟩ := binGeom_grid_pos cfg hcfg roi
  have houth : 1 ≤ cfg.outh := hcfg.1
  have houtw : 1 ≤ cfg.outw := hcfg.2.1
  rw [depTotal_flatMap_range]
  have hterm : ∀ i ∈ Finset.range (1 * C * cfg.outh * cfg.outw),
      depTotal (binDeps H W bIdx (decodeIdx C cfg.outh cfg.outw i).2.1
        (binGeom cfg roi) (decodeIdx C cfg.outh cfg.outw i).2.2.1
        (decodeIdx C cfg.outh cfg.outw i).2.2.2
        (topDiff (decodeIdx C cfg.outh cfg.outw i).1
          (decodeIdx C cfg.outh cfg.outw i).2.1
          (decodeIdx C cfg.outh cfg.outw i).2.2.1
          (decodeIdx C cfg.outh cfg.outw i).2.2.2)) =
      topDiff (decodeIdx C cfg.outh cfg.outw i).1
        (decodeIdx C cfg.outh cfg.outw i).2.1
        (decodeIdx C cfg.outh cfg.outw i).2.2.1
        (decodeIdx C cfg.outh cfg.outw i).2.2.2 := by
    intro i hi
    exact binDeps_total H W hH hW bIdx _ (binGeom cfg roi) _ _ _ hgh hgw rfl
      (fun iy ix hiy hix =>
        hval (decodeIdx C cfg.outh cfg.outw i).2.2.1
          (decodeIdx C cfg.outh cfg.outw i).2.2.2 iy ix
          (Nat.mod_lt _ (by omega)) (Nat.mod_lt _ (by omega)) hiy hix)
  rw [Finset.sum_congr rfl hterm, sum_decode 1 C cfg.outh cfg.outw topDiff,
    Finset.sum_range_one]

theorem backward_single_roi_keys (cfg : AlignConfig) (B C H W : ℕ)
    (hH : 1 ≤ H) (hW : 1 ≤ W) (bIdx : ℤ) (hb0 : 0 ≤ bIdx)
    (hbB : bIdx < (B : ℤ)) (roi : ℚ × ℚ × ℚ × ℚ)
    (topDiff : ℕ → ℕ → ℕ → ℕ → ℚ) :
    ∀ d ∈ (List.range (1 * C * cfg.outh * cfg.outw)).flatMap fun i =>
        binDeps H W bIdx (decodeIdx C cfg.outh cfg.outw i).2.1
          (binGeom cfg roi) (decodeIdx C cfg.outh cfg.outw i).2.2.1
          (decodeIdx C cfg.outh cfg.outw i).2.2.2
          (topDiff (decodeIdx C cfg.outh cfg.outw i).1
            (decodeIdx C cfg.outh cfg.outw i).2.1
            (decodeIdx C cfg.outh cfg.outw i).2.2.1
            (decodeIdx C cfg.outh cfg.outw i).2.2.2),
      d.1 ∈ shapeCells B C H W := by
  intro d hd
  obtain ⟨i, hiL, hdi⟩ := List.mem_flatMap.mp hd
  have hC : 0 < C := by
    rcases Nat.eq_zero_or_pos C with h | h
    · subst h
      simp at hiL
    · exact h
  exact binDepsN_keys B C H W hH hW bIdx hb0 hbB _ (Nat.mod_lt _ hC)
    (binGeom cfg roi) _ _ _ _ _ d hdi

/-- C4: for a single ROI on which every grid sample of every bin resolves
as valid, `backward_cpu` terminates and the sum of the recovered
feature-map gradient over the entire gradient array equals the sum of the
incoming output gradient — each valid sample deposits
`g * (w1+w2+w3+w4) / count = g / count` and the `count` samples of a bin
together deposit exactly `g` (conservation of gradient mass, exact over
`ℚ`). -/
theorem C4_gradient_mass_conservation (cfg : AlignConfig)
    (hcfg : ConfigValid cfg) (B C H W : ℕ) (hH : 1 ≤ H) (hW : 1 ≤ W)
    (roi : ℚ × ℚ × ℚ × ℚ) (bIdx : ℤ) (hb0 : 0 ≤ bIdx)
    (hbB : bIdx < (B : ℤ)) (topDiff : ℕ → ℕ → ℕ → ℕ → ℚ)
    (fuelIx fuelIy : ℕ)
    (hfx : (binGeom cfg roi).gridW.toNat < fuelIx)
    (hfy : (binGeom cfg roi).gridH.toNat < fuelIy)
    (hval : ∀ ph pw iy ix : ℕ, ph < cfg.outh → pw < cfg.outw →
      (iy : ℤ) < (binGeom cfg roi).gridH →
      (ix : ℤ) < (binGeom cfg roi).gridW →
      (get_bilinear_interp_params (sampleY (binGeom cfg roi) ph iy)
        (sampleX (binGeom cfg roi) pw ix) H W).isSome = true) :
    ∃ l, backward_cpu cfg C H W (fun _ => roi) (fun _ => bIdx) topDiff 1
        fuelIx fuelIy = some l ∧
      cellSum (shapeCells B C H W) l =
        ∑ c ∈ Finset.range C, ∑ ph ∈ Finset.range cfg.outh,
          ∑ pw ∈ Finset.range cfg.outw, topDiff 0 c ph pw := by
  refine ⟨_, backward_single_roi_run cfg C H W hcfg.1 hcfg.2.1 roi bIdx
    topDiff fuelIx fuelIy hfx hfy hval, ?_⟩
  rw [cellSum_eq_depTotal _ _
    (backward_single_roi_keys cfg B C H W hH hW bIdx hb0 hbB roi topDiff)]
  exact backward_single_roi_total cfg hcfg C H W hH hW roi bIdx topDiff hval

/-- Witness for C4: a concrete fully-valid single-ROI configuration — ROI
`(0,0,4,4)` on a `(1,1,4,4)` feature map, `outsize = (1,1)`,
`sampling_ratio = (1,1)`, unit output gradient — on which the run
terminates and gradient mass is conserved. -/
theorem C4_witness :
    ∃ l, backward_cpu ⟨1, 1, 1, some 1, some 1⟩ 1 4 4
        (fun _ => (0, 0, 4, 4)) (fun _ => 0) (fun _ _ _ _ => 1) 1 2 2 =
          some l ∧
      cellSum (shapeCells 1 1 4 4) l =
        ∑ c ∈ Finset.range 1, ∑ ph ∈ Finset.range 1,
          ∑ pw ∈ Finset.range 1, (1 : ℚ) := by
  have hgH : (binGeom ⟨1, 1, 1, some 1, some 1⟩
      ((0 : ℚ), (0 : ℚ), (4 : ℚ), (4 : ℚ))).gridH = 1 := by
    norm_num [binGeom, binGeomScaled, roiBinGrid]
  have hgW : (binGeom ⟨1, 1, 1, some 1, some 1⟩
      ((0 : ℚ), (0 : ℚ), (4 : ℚ), (4 : ℚ))).gridW = 1 := by
    norm_num [binGeom, binGeomScaled, roiBinGrid]
  refine C4_gradient_mass_conservation ⟨1, 1, 1, some 1, some 1⟩
    ⟨le_refl 1, le_refl 1, fun k hk => le_of_eq (Option.some.inj hk),
      fun k hk => le_of_eq (Option.some.inj hk)⟩
    1 1 4 4 (by norm_num) (by norm_num) (0, 0, 4, 4) 0 (by norm_num)
    (by norm_num) (fun _ _ _ _ => 1) 2 2 (by rw [hgW]; norm_num)
    (by rw [hgH]; norm_num) ?_
  intro ph pw iy ix h1 h2 h3 h4
  rw [hgH] at h3
  rw [hgW] at h4
  have h1' : ph < 1 := h1
  have h2' : pw < 1 := h2
  have hph : ph = 0 := by omega
  have hpw : pw = 0 := by omega
  have hiy : iy = 0 := by omega
  have hix : ix = 0 := by omega
  subst hph
  subst hpw
  subst hiy
  subst hix
  norm_num [binGeom, binGeomScaled, roiBinGrid, sampleY, sampleX,
    get_bilinear_interp_params]

/-! ### Claim theorems: grid sizing and degenerate ROIs -/

/-- C8: with an explicit sampling ratio `k` on an axis the grid size on
that axis is exactly `k`, independent of the ROI; with `None` it is
`ceil(roi_extent / pooled_extent)` of the minimum-1-clamped extent, which
is at least 1; and `sampling_ratio = (k, k)` gives `count = k * k`. -/
theorem C8_grid_size (cfg : AlignConfig) (sh sw eh ew : ℚ) (k : ℤ)
    (hout : 1 ≤ cfg.outh) (houtw : 1 ≤ cfg.outw) :
    (cfg.sampling_ratio_h = some k →
      (binGeomScaled cfg sh sw eh ew).gridH = k) ∧
    (cfg.sampling_ratio_h = none →
      (binGeomScaled cfg sh sw eh ew).gridH =
          ⌈max (eh - sh) 1 / (cfg.outh : ℚ)⌉ ∧
        1 ≤ (binGeomScaled cfg sh sw eh ew).gridH) ∧
    (cfg.sampling_ratio_w = some k →
      (binGeomScaled cfg sh sw eh ew).gridW = k) ∧
    (cfg.sampling_ratio_w = none →
      (binGeomScaled cfg sh sw eh ew).gridW =
          ⌈max (ew - sw) 1 / (cfg.outw : ℚ)⌉ ∧
        1 ≤ (binGeomScaled cfg sh sw eh ew).gridW) ∧
    (cfg.sampling_ratio_h = some k → cfg.sampling_ratio_w = some k →
      (binGeomScaled cfg sh sw eh ew).count = (k : ℚ) * (k : ℚ)) := by
  have hGH : (binGeomScaled cfg sh sw eh ew).gridH =
      roiBinGrid cfg.sampling_ratio_h (max (eh - sh) 1) cfg.outh := rfl
  have hGW : (binGeomScaled cfg sh sw eh ew).gridW =
      roiBinGrid cfg.sampling_ratio_w (max (ew - sw) 1) cfg.outw := rfl
  refine ⟨fun hk => ?_, fun hn => ⟨?_, ?_⟩, fun hk => ?_,
    fun hn => ⟨?_, ?_⟩, fun hkh hkw => ?_⟩
  · rw [hGH, hk]
    simp [roiBinGrid]
  · rw [hGH, hn]
    simp [roiBinGrid]
  · rw [hGH]
    exact one_le_roiBinGrid _ (by simp [hn]) _ (le_max_right _ 1) _ hout
  · rw [hGW, hk]
    simp [roiBinGrid]
  · rw [hGW, hn]
    simp [roiBinGrid]
  · rw [hGW]
    exact one_le_roiBinGrid _ (by simp [hn]) _ (le_max_right _ 1) _ houtw
  · show ((roiBinGrid cfg.sampling_ratio_h (max (eh - sh) 1) cfg.outh : ℚ) *
        (roiBinGrid cfg.sampling_ratio_w (max (ew - sw) 1) cfg.outw : ℚ)) =
      (k : ℚ) * (k : ℚ)
    rw [hkh, hkw]
    simp [roiBinGrid]

/-- Witness for C8 at a concrete configuration with `outsize = (1, 1)`,
`sampling_ratio = (3, 3)` and ROI extent 5. -/
theorem C8_grid_size_witness :
    (binGeomScaled ⟨1, 1, 1, some 3, some 3⟩ 0 0 5 5).gridH = 3 ∧
      (binGeomScaled ⟨1, 1, 1, some 3, some 3⟩ 0 0 5 5).count =
        (3 : ℚ) * (3 : ℚ) :=
  ⟨(C8_grid_size ⟨1, 1, 1, some 3, some 3⟩ 0 0 5 5 3 (by norm_num)
      (by norm_num)).1 rfl,
    (C8_grid_size ⟨1, 1, 1, some 3, some 3⟩ 0 0 5 5 3 (by norm_num)
      (by norm_num)).2.2.2.2 rfl rfl⟩

/-- C9: a forward bin whose scaled ROI is empty or inverted on an axis
produces exactly the same output as the synthetic ROI with the same start
corner and scaled extent exactly 1 on that axis, because the extent is
computed as `max(roi_end - roi_start, 1.0)`. -/
theorem C9_degenerate_roi (cfg : AlignConfig) (data : FeatureMap)
    (H W : ℕ) (b : ℤ) (c : ℕ) (sh sw eh ew : ℚ) (ph pw : ℕ)
    (fuelIx fuelIy : ℕ) :
    (eh ≤ sh →
      fwdBinScaled cfg data H W b c sh sw eh ew ph pw fuelIx fuelIy =
        fwdBinScaled cfg data H W b c sh sw (sh + 1) ew ph pw
          fuelIx fuelIy) ∧
    (ew ≤ sw →
      fwdBinScaled cfg data H W b c sh sw eh ew ph pw fuelIx fuelIy =
        fwdBinScaled cfg data H W b c sh sw eh (sw + 1) ph pw
          fuelIx fuelIy) := by
  constructor
  · intro hdeg
    have hgeom : binGeomScaled cfg sh sw eh ew =
        binGeomScaled cfg sh sw (sh + 1) ew := by
      unfold binGeomScaled
      rw [show max (eh - sh) 1 = max (sh + 1 - sh) 1 by
        rw [max_eq_right (by linarith), show sh + 1 - sh = 1 by ring,
          max_self]]
    simp only [fwdBinScaled, hgeom]
  · intro hdeg
    have hgeom : binGeomScaled cfg sh sw eh ew =
        binGeomScaled cfg sh sw eh (sw + 1) := by
      unfold binGeomScaled
      rw [show max (ew - sw) 1 = max (sw + 1 - sw) 1 by
        rw [max_eq_right (by linarith), show sw + 1 - sw = 1 by ring,
          max_self]]
    simp only [fwdBinScaled, hgeom]

/-- Witness for C9: a concrete inverted ROI (`eh = 1 ≤ sh = 2`) produces
the same bin output as the synthetic ROI with scaled height extent 1. -/
theorem C9_degenerate_roi_witness :
    fwdBinScaled ⟨1, 1, 1, some 1, some 1⟩ (fun _ _ _ _ => 7) 4 4 0 0
        2 0 1 4 0 0 3 3 =
      fwdBinScaled ⟨1, 1, 1, some 1, some 1⟩ (fun _ _ _ _ => 7) 4 4 0 0
        2 0 (2 + 1) 4 0 0 3 3 :=
  (C9_degenerate_roi ⟨1, 1, 1, some 1, some 1⟩ (fun _ _ _ _ => 7) 4 4 0 0
    2 0 1 4 0 0 3 3).1 (by norm_num)
